import Mathlib

/-!
Prime field arithmetic of the Kyber implementation (`include/ff.hpp`).

A shallow embedding of the C++ namespace `ff`: the constants, the extended
Euclidean algorithm `xgcd` and the field element type `ff_t` with its operators.

Machine integers are modelled by `Nat` (unsigned) and `Int` (signed) values, and
every conversion to a fixed-width type that the C++ performs is written out:
`u16`, `u32`, `u64` reduce modulo `2^16`, `2^32`, `2^64`, and `i16` wraps into
`[-32768, 32767]`.  Arithmetic on `uint16_t`/`int16_t`/`bool` operands is carried
out in `int` after integral promotion, as in C++; those `int` intermediates stay
far below `2^31` in absolute value, so they are plain integers here.
-/

namespace ff

/-- Conversion to `uint16_t`: reduction modulo `2^16`. -/
def u16 (x : Int) : Nat := (x % 65536).toNat

/-- Conversion to `uint32_t`: reduction modulo `2^32`. -/
def u32 (x : Int) : Nat := (x % 4294967296).toNat

/-- Conversion to `uint64_t`: reduction modulo `2^64`. -/
def u64 (x : Int) : Nat := (x % 18446744073709551616).toNat

/-- Conversion to `int16_t`: the representative of `x` modulo `2^16` that lies in
`[-32768, 32767]`. -/
def i16 (x : Int) : Int := (x + 32768) % 65536 - 32768

/-- Kyber prime field modulus, `(1 << 8) * 13 + 1`. -/
def Q : Nat := (1 <<< 8) * 13 + 1

/-- Precomputed Barrett reduction constant. -/
def R : Nat := 5039

/-- Primitive element of the prime field. -/
def GENERATOR : Nat := 3

/-- Two adicity of the prime field. -/
def TWO_ADICITY : Nat := 8

/-- Two adic root of unity. -/
def TWO_ADIC_ROOT_OF_UNITY : Nat := 3061

/-- The six `int16_t` variables of the loop in `xgcd`. -/
structure xgcd_state where
  old_r : Int
  r : Int
  old_s : Int
  s : Int
  old_t : Int
  t : Int
deriving DecidableEq, Repr

/-- One pass through the body of the `while` loop of `xgcd`.  The quotient is the
C++ integer division (truncation toward zero) narrowed to `int16_t`; each of
`tmp - quotient * r`, `tmp - quotient * s`, `tmp - quotient * t` is computed in
`int` and narrowed to `int16_t` on assignment. -/
def xgcd_body (st : xgcd_state) : xgcd_state :=
  let quotient := i16 (Int.tdiv st.old_r st.r)
  xgcd_state.mk
    st.r (i16 (st.old_r - quotient * st.r))
    st.s (i16 (st.old_s - quotient * st.s))
    st.t (i16 (st.old_t - quotient * st.t))

/-- The loop `while (r != 0) { ... }` of `xgcd`, run for at most `fuel` tests of
the loop condition; `none` when the fuel is used up before `r` reaches zero. -/
def xgcd_loop : Nat → xgcd_state → Option xgcd_state
  | 0, _ => none
  | fuel + 1, st => if st.r = 0 then some st else xgcd_loop fuel (xgcd_body st)

/-- Extended GCD algorithm, returning `(a, b, g)` with the intent `a*x + b*y = g`.
The arguments are `uint16_t` values, cast to `int16_t` on entry.  The loop is given
`32769` tests of its condition: `|r|` is at most `32768` on entry and gets strictly
smaller with every pass (`xgcd_body_decreases`), so the fuel is never used up
(`xgcd_terminates`). -/
def xgcd (x y : Nat) : Option (Int × Int × Int) :=
  (xgcd_loop 32769 (xgcd_state.mk (i16 x) (i16 y) 1 0 0 1)).map
    (fun st => (st.old_s, st.old_t, st.old_r))

/-- Loop invariant of `xgcd` on inputs `x`, `y`, with `e` the sign `(-1)^k` after
`k` passes: the remainders are non-negative 15-bit values, both Bezout identities
hold over the integers, the two cross products are `y` and `x` up to the sign `e`,
the coefficients alternate in sign, and `old_s`, `s`, `old_t`, `t` are bounded by
the inputs. -/
def xgcd_inv (x y e : Int) (st : xgcd_state) : Prop :=
  (0 ≤ st.old_r ∧ 0 ≤ st.r ∧ st.old_r ≤ 32767 ∧ st.r ≤ 32767) ∧
  (st.old_s * x + st.old_t * y = st.old_r ∧ st.s * x + st.t * y = st.r) ∧
  (e * (st.old_s * st.r - st.s * st.old_r) = y ∧
    e * (st.t * st.old_r - st.old_t * st.r) = x) ∧
  (0 ≤ e * st.old_s ∧ e * st.s ≤ 0 ∧ e * st.old_t ≤ 0 ∧ 0 ≤ e * st.t) ∧
  ((e * st.old_s ≤ y ∨ e * st.old_s ≤ 1) ∧ -y ≤ e * st.s ∧
    (-x ≤ e * st.old_t ∨ -1 ≤ e * st.old_t) ∧ (e * st.t ≤ x ∨ e * st.t ≤ 1))

/-- Element of the prime field F_q, q = 3329; `v` is a `uint16_t`. -/
structure ff_t where
  v : Nat
deriving DecidableEq, Repr

namespace ff_t

/-- The constructor `ff_t(const uint16_t a = 0) { v = a % Q; }`. -/
def new (a : Nat) : ff_t := ⟨a % Q⟩

/-- Field element having canonical value 0. -/
def zero : ff_t := new 0

/-- Field element having canonical value 1. -/
def one : ff_t := new 1

/-- `operator+`: canonical form of prime field addition. -/
def add (a b : ff_t) : ff_t :=
  let t0 := u16 (a.v + b.v)
  let flg := decide (Q ≤ t0)
  let t1 := u16 (t0 - flg.toNat * Q)
  new t1

/-- `operator+=`: compound addition; the result is stored into `v` directly,
without going through the constructor. -/
def add_assign (a b : ff_t) : ff_t :=
  let t0 := u16 (a.v + b.v)
  let flg := decide (Q ≤ t0)
  let t1 := u16 (t0 - flg.toNat * Q)
  ⟨t1⟩

/-- Binary `operator-`: canonical form of prime field subtraction. -/
def sub (a b : ff_t) : ff_t :=
  let t0 := u16 (Q + a.v - b.v)
  let flg := decide (Q ≤ t0)
  let t1 := u16 (t0 - flg.toNat * Q)
  new t1

/-- Unary `operator-`: canonical form of prime field negation. -/
def neg (a : ff_t) : ff_t :=
  let tmp := u16 (Q - a.v)
  new tmp

/-- `operator*`: prime field multiplication with Barrett reduction.  The
`uint32_t` product, the `uint64_t` product with `R`, the shift by 24 and the
`uint32_t` subtraction all wrap as in C++. -/
def mul (a b : ff_t) : ff_t :=
  let t0 := u32 a.v
  let t1 := u32 b.v
  let t2 := u32 (t0 * t1)
  let t3 := u64 (u64 t2 * u64 R)
  let t4 := u32 (t3 >>> 24)
  let t5 := u32 (t4 * u32 Q)
  let t6 := u16 (u32 (t2 - t5))
  let flg := decide (Q ≤ t6)
  let t7 := u16 (t6 - flg.toNat * Q)
  new t7

/-- Multiplicative inverse through `xgcd`; `none` only if the loop of `xgcd` does
not come to an end within its fuel. -/
def inv (a : ff_t) : Option ff_t :=
  let flg0 := decide (a.v = 0)
  let t0 := u16 (a.v + flg0.toNat * 1)
  match xgcd t0 Q with
  | none => none
  | some res =>
    let flg1 := decide (res.1 < 0)
    let t1 := u16 (flg1.toNat * Q + res.1)
    let flg2 := decide (Q ≤ t1)
    let t2 := u16 (t1 - flg2.toNat * Q)
    let t3 := u16 (t2 - flg0.toNat * 1)
    some (new t3)

/-- `operator/`: `(*this) * rhs.inv()`. -/
def div (a b : ff_t) : Option ff_t :=
  match inv b with
  | none => none
  | some bi => some (mul a bi)

/-- Scan for `std::countl_zero` on a 64-bit word: `k` bits remain to be looked at,
from bit `k - 1` downwards. -/
def countl_zero_from : Nat → Nat → Nat
  | 0, _ => 0
  | k + 1, n => if (n >>> k) &&& 1 = 1 then 0 else countl_zero_from k n + 1

/-- `std::countl_zero` on `size_t` (64 bits): the number of consecutive zero bits
starting from the most significant bit. -/
def countl_zero (n : Nat) : Nat := countl_zero_from 64 n

/-- The loop `for (size_t i = 1; i < 64 - zeros; i++)` of `operator^`, with `k`
passes left to do and loop counter `i`. -/
def pow_loop (n : Nat) : Nat → Nat → ff_t → ff_t → ff_t
  | 0, _, _, r => r
  | k + 1, i, base, r =>
    let base1 := mul base base
    let r1 := if (n >>> i) &&& 1 ≠ 0 then mul r base1 else r
    pow_loop n k (i + 1) base1 r1

/-- `operator^`: exponentiation by repeated squaring; `n` is a `size_t`.  The
`for` loop runs for `i = 1, ..., 64 - zeros - 1`. -/
def pow (a : ff_t) (n : Nat) : ff_t :=
  if n = 0 then one
  else if n = 1 then a
  else if a.v = 0 then zero
  else
    let base := a
    let r := if n &&& 1 ≠ 0 then base else one
    let zeros := countl_zero n
    pow_loop n (64 - zeros - 1) 1 base r

end ff_t

/-- Root of unity of order `2 ^ n`, for `0 < n ≤ TWO_ADICITY`; `exp` is
`1ul << (TWO_ADICITY - n)`, a shift by a non-negative count for these `n`. -/
def nth_root_of_unity (n : Nat) : ff_t :=
  let v := ff_t.new TWO_ADIC_ROOT_OF_UNITY
  let exp := u64 (1 <<< (TWO_ADICITY - n))
  ff_t.pow v exp

/-- The variable `t2` of `operator*`: the `uint32_t` product of the operands. -/
def ff_t.mul_t2 (a b : ff_t) : Nat := u32 (u32 a.v * u32 b.v)

/-- The variable `t4` of `operator*`: the Barrett quotient estimate
`(t2 * R) >> 24`, computed in `uint64_t` and cast to `uint32_t`. -/
def ff_t.mul_t4 (a b : ff_t) : Nat := u32 (u64 (u64 (ff_t.mul_t2 a b) * u64 R) >>> 24)

/-- The `uint32_t` difference `t2 - t5` of `operator*`, with `t5 = t4 * Q`, before
the narrowing cast to `uint16_t`. -/
def ff_t.mul_t2_sub_t5 (a b : ff_t) : Nat :=
  u32 (ff_t.mul_t2 a b - u32 (ff_t.mul_t4 a b * u32 Q))

/-- The variable `t6` of `operator*`: `t2 - t5` narrowed to `uint16_t`. -/
def ff_t.mul_t6 (a b : ff_t) : Nat := u16 (ff_t.mul_t2_sub_t5 a b)

/-- The variable `t7` of `operator*`: `t6` after the conditional subtraction of `Q`. -/
def ff_t.mul_t7 (a b : ff_t) : Nat :=
  u16 (ff_t.mul_t6 a b - (decide (Q ≤ ff_t.mul_t6 a b)).toNat * Q)

/-- Whether an `int` value is representable in `int16_t`. -/
def in_i16 (z : Int) : Bool := decide (-32768 ≤ z) && decide (z ≤ 32767)

/-- Whether every value assigned to an `int16_t` variable in one pass through the
loop body of `xgcd` is representable in `int16_t` before it is narrowed: the
quotient, then `tmp = old_r`, `old_r = r`, `r = tmp - quotient * r`, and the same
for the `s` and the `t` variables. -/
def xgcd_body_exact (st : xgcd_state) : Bool :=
  let quotient := i16 (Int.tdiv st.old_r st.r)
  in_i16 (Int.tdiv st.old_r st.r) &&
  in_i16 st.old_r && in_i16 st.r && in_i16 (st.old_r - quotient * st.r) &&
  in_i16 st.old_s && in_i16 st.s && in_i16 (st.old_s - quotient * st.s) &&
  in_i16 st.old_t && in_i16 st.t && in_i16 (st.old_t - quotient * st.t)

/-- Whether the loop of `xgcd`, started in `st`, ends within `fuel` tests of its
condition with every pass free of a value-changing narrowing. -/
def xgcd_loop_exact : Nat → xgcd_state → Bool
  | 0, _ => false
  | fuel + 1, st =>
    if st.r = 0 then true else xgcd_body_exact st && xgcd_loop_exact fuel (xgcd_body st)

/-- Whether `xgcd(x, y)` runs without any narrowing conversion changing a value:
the two casts of the arguments to `int16_t` on entry, and every pass of the loop. -/
def xgcd_exact (x y : Nat) : Bool :=
  in_i16 x && in_i16 y && xgcd_loop_exact 32769 (xgcd_state.mk (i16 x) (i16 y) 1 0 0 1)

/-! ## Basic facts about the conversions -/

theorem Q_eq : Q = 3329 := by decide

theorem u16_of_lt (n : Nat) (h : n < 65536) : u16 (n : Int) = n := by
  unfold u16; omega

theorem u32_of_lt (n : Nat) (h : n < 4294967296) : u32 (n : Int) = n := by
  unfold u32; omega

theorem u64_of_lt (n : Nat) (h : n < 18446744073709551616) : u64 (n : Int) = n := by
  unfold u64; omega

theorem new_v (a : Nat) : (ff_t.new a).v = a % 3329 := by
  simp [ff_t.new, Q_eq]

/-- The conditional subtraction `t - flg * Q` with `flg = (t >= Q)`, converted to
`uint16_t`, is the canonical residue of `t` whenever `t < 2 * Q`. -/
theorem cond_sub (t : Nat) (h : t < 6658) :
    u16 (t - (decide (Q ≤ t)).toNat * Q) = t % 3329 := by
  rw [Q_eq]
  by_cases h1 : 3329 ≤ t
  · simp only [h1, decide_True, Bool.toNat_true]
    unfold u16; omega
  · simp only [h1, decide_False, Bool.toNat_false]
    unfold u16; omega

/-! ## Addition, subtraction, negation -/

theorem ff_t.eq_of_v {a b : ff_t} (h : a.v = b.v) : a = b := by
  cases a; cases b; simp only at h; rw [h]

theorem add_t0 (a b : ff_t) (ha : a.v < 3329) (hb : b.v < 3329) :
    u16 (a.v + b.v) = a.v + b.v := by
  unfold u16; omega

theorem add_val (a b : ff_t) (ha : a.v < 3329) (hb : b.v < 3329) :
    (ff_t.add a b).v = (a.v + b.v) % 3329 := by
  have ht1 := cond_sub (a.v + b.v) (by omega)
  simp only [ff_t.add, new_v, add_t0 a b ha hb, ht1]; omega

theorem add_assign_val (a b : ff_t) (ha : a.v < 3329) (hb : b.v < 3329) :
    (ff_t.add_assign a b).v = (a.v + b.v) % 3329 := by
  have ht1 := cond_sub (a.v + b.v) (by omega)
  simp only [ff_t.add_assign, add_t0 a b ha hb, ht1]

theorem sub_val (a b : ff_t) (ha : a.v < 3329) (hb : b.v < 3329) :
    (ff_t.sub a b).v = (3329 + a.v - b.v) % 3329 := by
  have ht0 : u16 (Q + a.v - b.v) = 3329 + a.v - b.v := by rw [Q_eq]; unfold u16; omega
  have ht1 := cond_sub (3329 + a.v - b.v) (by omega)
  simp only [ff_t.sub, new_v, ht0, ht1]; omega

theorem neg_val (a : ff_t) (ha : a.v < 3329) : (ff_t.neg a).v = (3329 - a.v) % 3329 := by
  have ht : u16 (Q - a.v) = 3329 - a.v := by rw [Q_eq]; unfold u16; omega
  simp only [ff_t.neg, new_v, ht]

/-- C4: for canonical operands, `operator+` returns the canonical residue of the
sum; the 16-bit intermediate `a.v + b.v` is the exact sum (no wrap), and the value
after the single conditional subtraction of `Q` is already below `Q`. -/
theorem add_correct (a b : ff_t) (ha : a.v < 3329) (hb : b.v < 3329) :
    (ff_t.add a b).v < 3329 ∧ (ff_t.add a b).v = (a.v + b.v) % 3329 ∧
    u16 (a.v + b.v) = a.v + b.v ∧
    u16 (u16 (a.v + b.v) - (decide (Q ≤ u16 (a.v + b.v))).toNat * Q) < 3329 := by
  have ht0 := add_t0 a b ha hb
  have ht1 := cond_sub (a.v + b.v) (by omega)
  have hv := add_val a b ha hb
  refine ⟨by omega, hv, ht0, ?_⟩
  rw [ht0, ht1]; omega

theorem add_correct_witness :
    (ff_t.add ⟨3000⟩ ⟨3328⟩).v < 3329 ∧ (ff_t.add ⟨3000⟩ ⟨3328⟩).v = (3000 + 3328) % 3329 ∧
    u16 ((3000 : Nat) + (3328 : Nat)) = 3000 + 3328 ∧
    u16 (u16 ((3000 : Nat) + (3328 : Nat)) -
      (decide (Q ≤ u16 ((3000 : Nat) + (3328 : Nat)))).toNat * Q) < 3329 :=
  add_correct ⟨3000⟩ ⟨3328⟩ (by decide) (by decide)

/-- C5: for canonical operands, binary `operator-` returns the non-negative
residue of `a.v - b.v` modulo 3329, and adding `b` back gives `a`. -/
theorem sub_correct (a b : ff_t) (ha : a.v < 3329) (hb : b.v < 3329) :
    (ff_t.sub a b).v < 3329 ∧
    ((ff_t.sub a b).v : Int) = ((a.v : Int) - (b.v : Int)) % 3329 ∧
    ff_t.add (ff_t.sub a b) b = a := by
  have hv := sub_val a b ha hb
  refine ⟨by omega, by omega, ?_⟩
  apply ff_t.eq_of_v
  rw [add_val (ff_t.sub a b) b (by omega) hb, hv]; omega

theorem sub_correct_witness :
    (ff_t.sub ⟨5⟩ ⟨3328⟩).v < 3329 ∧
    ((ff_t.sub ⟨5⟩ ⟨3328⟩).v : Int) = (((5 : Nat) : Int) - ((3328 : Nat) : Int)) % 3329 ∧
    ff_t.add (ff_t.sub ⟨5⟩ ⟨3328⟩) ⟨3328⟩ = ⟨5⟩ :=
  sub_correct ⟨5⟩ ⟨3328⟩ (by decide) (by decide)

/-- C10: for a canonical operand, unary `operator-` returns `(3329 - a.v) mod 3329`,
a value below 3329; `a + (-a)` is the zero element, and the negation of zero is
zero (value 0, not 3329). -/
theorem neg_correct (a : ff_t) (ha : a.v < 3329) :
    (ff_t.neg a).v = (3329 - a.v) % 3329 ∧ (ff_t.neg a).v < 3329 ∧
    ff_t.add a (ff_t.neg a) = ff_t.zero ∧ (ff_t.neg ff_t.zero).v = 0 := by
  have hv := neg_val a ha
  refine ⟨hv, by omega, ?_, by decide⟩
  apply ff_t.eq_of_v
  rw [add_val a (ff_t.neg a) ha (by omega), hv]
  show _ = 0 % Q
  rw [Q_eq]; omega

theorem neg_correct_witness :
    (ff_t.neg ⟨1⟩).v = (3329 - 1) % 3329 ∧ (ff_t.neg ⟨1⟩).v < 3329 ∧
    ff_t.add ⟨1⟩ (ff_t.neg ⟨1⟩) = ff_t.zero ∧ (ff_t.neg ff_t.zero).v = 0 :=
  neg_correct ⟨1⟩ (by decide)

/-! ## Multiplication: Barrett reduction -/

theorem u32_Q : u32 Q = 3329 := by decide

theorem u64_R : u64 R = 5039 := by decide

theorem two_pow_24 : (2 : Nat) ^ 24 = 16777216 := by norm_num

theorem mul_val (a b : ff_t) (ha : a.v < 3329) (hb : b.v < 3329) :
    (ff_t.mul a b).v = (a.v * b.v) % 3329 := by
  have h0 : u32 a.v = a.v := u32_of_lt _ (by omega)
  have h1 : u32 b.v = b.v := u32_of_lt _ (by omega)
  have ht : a.v * b.v < 11082241 := Nat.mul_lt_mul'' ha hb
  simp only [ff_t.mul, new_v, h0, h1, u32_Q, u64_R, Nat.shiftRight_eq_div_pow, two_pow_24,
    ← Nat.cast_mul]
  generalize a.v * b.v = t at ht ⊢
  rw [u32_of_lt t (by omega), u64_of_lt t (by omega), u64_of_lt (t * 5039) (by omega)]
  have hq : ∃ q, q = t * 5039 / 16777216 := ⟨_, rfl⟩
  obtain ⟨q, hq⟩ := hq
  rw [← hq]
  have hq1 : q * 3329 ≤ t := by omega
  have hq2 : t - q * 3329 < 6658 := by omega
  clear hq
  have h6 : (t : Int) - ((q * 3329 : Nat) : Int) = ((t - q * 3329 : Nat) : Int) := by omega
  rw [u32_of_lt q (by omega), u32_of_lt (q * 3329) (by omega), h6,
    u32_of_lt (t - q * 3329) (by omega), u16_of_lt (t - q * 3329) (by omega),
    Nat.cast_mul, cond_sub (t - q * 3329) hq2]
  omega

/-- C1: for canonical operands, `operator*` returns a value in `[0, 3329)` that
equals `(a.v * b.v) mod 3329`. -/
theorem mul_correct (a b : ff_t) (ha : a.v < 3329) (hb : b.v < 3329) :
    (ff_t.mul a b).v < 3329 ∧ (ff_t.mul a b).v = (a.v * b.v) % 3329 := by
  have hv := mul_val a b ha hb
  exact ⟨by omega, hv⟩

theorem mul_correct_witness :
    (ff_t.mul ⟨3328⟩ ⟨3328⟩).v < 3329 ∧ (ff_t.mul ⟨3328⟩ ⟨3328⟩).v = (3328 * 3328) % 3329 :=
  mul_correct ⟨3328⟩ ⟨3328⟩ (by decide) (by decide)

/-! ## The extended Euclidean algorithm -/

theorem i16_of_range (z : Int) (h0 : -32768 ≤ z) (h1 : z ≤ 32767) : i16 z = z := by
  unfold i16; omega

/-- A non-negative integer whose product with a positive integer is at most `y`
is itself at most `y`. -/
theorem le_of_mul_pos_le (b r p y : Int) (hb : 0 ≤ b) (hr : 1 ≤ r) (hp : 0 ≤ p)
    (h : b * r + p = y) : b ≤ y := by
  have h1 : b ≤ b * r := le_mul_of_one_le_right hb hr
  linarith

theorem xgcd_inv_init (x y : Int) (hx : 0 ≤ x) (hx1 : x ≤ 32767) (hy : 0 ≤ y)
    (hy1 : y ≤ 32767) : xgcd_inv x y 1 (xgcd_state.mk x y 1 0 0 1) := by
  unfold xgcd_inv
  simp only
  refine ⟨⟨hx, hy, hx1, hy1⟩, ⟨by ring, by ring⟩, ⟨by ring, by ring⟩, ⟨by norm_num, by norm_num,
    by norm_num, by norm_num⟩, ⟨Or.inr (by norm_num), by omega, Or.inr (by norm_num),
    Or.inr (by norm_num)⟩⟩

theorem xgcd_body_inv (x y e : Int) (st : xgcd_state) (he : e = 1 ∨ e = -1)
    (hx : 0 ≤ x ∧ x ≤ 32767) (hy : 0 ≤ y ∧ y ≤ 32767)
    (h : xgcd_inv x y e st) (hr : st.r ≠ 0) :
    xgcd_inv x y (-e) (xgcd_body st) ∧ (xgcd_body st).r < st.r := by
  obtain ⟨old_r, r, old_s, s, old_t, t⟩ := st
  obtain ⟨⟨h1, h2, h3, h4⟩, ⟨b1, b2⟩, ⟨c1, c2⟩, ⟨s1, s2, s3, s4⟩, ⟨d1, d2, d3, d4⟩⟩ := h
  simp only at h1 h2 h3 h4 b1 b2 c1 c2 s1 s2 s3 s4 d1 d2 d3 d4 hr
  have hrpos : 1 ≤ r := by omega
  have hq0 : 0 ≤ old_r / r := Int.ediv_nonneg h1 h2
  have hq1 : old_r / r ≤ old_r := Int.ediv_le_self r h1
  have hm0 : 0 ≤ old_r % r := Int.emod_nonneg old_r hr
  have hm1 : old_r % r < r := Int.emod_lt_of_pos old_r (by omega)
  have hmd : old_r % r = old_r - r * (old_r / r) := Int.emod_def old_r r
  have hqi : i16 (Int.tdiv old_r r) = old_r / r := by
    rw [Int.tdiv_eq_ediv h1 h2]; exact i16_of_range _ (by omega) (by omega)
  generalize old_r / r = q at hq0 hq1 hmd hqi
  generalize old_r % r = m at hm0 hm1 hmd
  have hrr : old_r - q * r = m := by rw [hmd]; ring
  -- the new coefficients, up to the sign `e`
  have es : 0 ≤ e * (old_s - q * s) := by
    have h : e * (old_s - q * s) = e * old_s + q * (-(e * s)) := by ring
    rw [h]; exact add_nonneg s1 (mul_nonneg hq0 (by linarith))
  have et : e * (old_t - q * t) ≤ 0 := by
    have h : e * (old_t - q * t) = -(-(e * old_t) + q * (e * t)) := by ring
    rw [h]
    have := add_nonneg (neg_nonneg.mpr s3) (mul_nonneg hq0 s4)
    linarith
  have cs : e * (old_s - q * s) * r + (-(e * s)) * m = y := by
    rw [← c1, hmd]; ring
  have ct : (-(e * (old_t - q * t))) * r + (e * t) * m = x := by
    rw [← c2, hmd]; ring
  have bs : e * (old_s - q * s) ≤ y :=
    le_of_mul_pos_le _ r _ y es hrpos (mul_nonneg (by linarith) hm0) cs
  have bt : -(e * (old_t - q * t)) ≤ x :=
    le_of_mul_pos_le _ r _ x (by linarith) hrpos (mul_nonneg s4 hm0) ct
  have ws : i16 (old_s - q * s) = old_s - q * s := by
    apply i16_of_range <;> rcases he with rfl | rfl <;> omega
  have wt : i16 (old_t - q * t) = old_t - q * t := by
    apply i16_of_range <;> rcases he with rfl | rfl <;> omega
  have wr : i16 (old_r - q * r) = m := by
    rw [hrr]; exact i16_of_range _ (by omega) (by omega)
  unfold xgcd_body xgcd_inv
  simp only [hqi, ws, wt, wr]
  refine ⟨⟨⟨h2, hm0, h4, by omega⟩, ⟨b2, ?_⟩, ⟨?_, ?_⟩, ⟨by linarith, by linarith, by linarith,
    by linarith⟩, ⟨?_, by linarith, ?_, ?_⟩⟩, hm1⟩
  · rw [← hrr, ← b1, ← b2]; ring
  · rw [← cs]; ring
  · rw [← ct]; ring
  · exact Or.inl (by linarith)
  · rcases d4 with d | d
    · exact Or.inl (by linarith)
    · exact Or.inr (by linarith)
  · exact Or.inl (by linarith)

theorem xgcd_loop_inv (x y : Int) (hx : 0 ≤ x ∧ x ≤ 32767) (hy : 0 ≤ y ∧ y ≤ 32767) :
    ∀ (fuel : Nat) (e : Int) (st : xgcd_state), (e = 1 ∨ e = -1) → xgcd_inv x y e st →
      st.r < fuel →
      ∃ e1 st1, (e1 = 1 ∨ e1 = -1) ∧ xgcd_loop fuel st = some st1 ∧ xgcd_inv x y e1 st1 ∧
        st1.r = 0 := by
  intro fuel
  induction fuel with
  | zero =>
    intro e st _ h hlt
    have := h.1.2.1
    omega
  | succ n ih =>
    intro e st he h hlt
    by_cases hr : st.r = 0
    · exact ⟨e, st, he, by simp [xgcd_loop, hr], h, hr⟩
    · obtain ⟨h1, h2⟩ := xgcd_body_inv x y e st he hx hy h hr
      have he1 : -e = 1 ∨ -e = -1 := by omega
      obtain ⟨e1, st1, a1, a2, a3, a4⟩ := ih (-e) (xgcd_body st) he1 h1 (by omega)
      exact ⟨e1, st1, a1, by simp [xgcd_loop, hr, a2], a3, a4⟩

/-- On 15-bit inputs `xgcd` returns, and its result `(a, b, g)` satisfies the Bezout
identity over the integers with `g` a non-negative common divisor of `x` and `y`;
the coefficients are bounded by the inputs. -/
theorem xgcd_spec (x y : Nat) (hx : x ≤ 32767) (hy : y ≤ 32767) :
    ∃ a b g : Int, xgcd x y = some (a, b, g) ∧ a * x + b * y = g ∧ 0 ≤ g ∧
      g ∣ (x : Int) ∧ g ∣ (y : Int) ∧
      ((-(y : Int) ≤ a ∧ a ≤ y) ∨ (-1 ≤ a ∧ a ≤ 1)) ∧
      ((-(x : Int) ≤ b ∧ b ≤ x) ∨ (-1 ≤ b ∧ b ≤ 1)) := by
  have hx1 : i16 (x : Int) = x := i16_of_range _ (by omega) (by omega)
  have hy1 : i16 (y : Int) = y := i16_of_range _ (by omega) (by omega)
  obtain ⟨e, st, he, hl, hinv, hr0⟩ :=
    xgcd_loop_inv x y ⟨by omega, by omega⟩ ⟨by omega, by omega⟩ 32769 1
      (xgcd_state.mk x y 1 0 0 1) (Or.inl rfl)
      (xgcd_inv_init x y (by omega) (by omega) (by omega) (by omega))
      (by simp only; omega)
  obtain ⟨old_r, r, old_s, s, old_t, t⟩ := st
  obtain ⟨⟨h1, h2, h3, h4⟩, ⟨b1, b2⟩, ⟨c1, c2⟩, ⟨s1, s2, s3, s4⟩, ⟨d1, d2, d3, d4⟩⟩ := hinv
  simp only at h1 h2 h3 h4 b1 b2 c1 c2 s1 s2 s3 s4 d1 d2 d3 d4 hr0
  subst hr0
  refine ⟨old_s, old_t, old_r, by simp [xgcd, hx1, hy1, hl], b1, h1, ?_, ?_, ?_, ?_⟩
  · exact ⟨e * t, by rw [← c2]; ring⟩
  · exact ⟨-(e * s), by rw [← c1]; ring⟩
  · rcases he with rfl | rfl <;> omega
  · rcases he with rfl | rfl <;> omega

/-! ## Termination of the loop of `xgcd` on all 16-bit inputs -/

theorem i16_range (z : Int) : -32768 ≤ i16 z ∧ i16 z ≤ 32767 := by
  unfold i16; omega

theorem i16_sub_mul (z m : Int) : i16 (z - 65536 * m) = i16 z := by
  unfold i16; omega

theorem natAbs_tmod (a b : Int) : (Int.tmod a b).natAbs = a.natAbs % b.natAbs := by
  cases a <;> cases b <;> simp [Int.tmod] <;> rfl

theorem natAbs_tmod_lt (a b : Int) (hb : b ≠ 0) : (Int.tmod a b).natAbs < b.natAbs := by
  rw [natAbs_tmod]
  exact Nat.mod_lt _ (Int.natAbs_pos.mpr hb)

/-- Each pass through the loop body keeps `r` a 16-bit value and makes `|r|`
strictly smaller, whatever the (16-bit) values of the variables are. -/
theorem xgcd_body_decreases (st : xgcd_state) (hr : st.r ≠ 0)
    (h1 : -32768 ≤ st.r ∧ st.r ≤ 32767) :
    (xgcd_body st).r.natAbs < st.r.natAbs ∧
      -32768 ≤ (xgcd_body st).r ∧ (xgcd_body st).r ≤ 32767 := by
  obtain ⟨old_r, r, old_s, s, old_t, t⟩ := st
  simp only at hr h1
  have hm := natAbs_tmod_lt old_r r hr
  have hd := Int.tmod_def old_r r
  have hq : ∃ k : Int, i16 (Int.tdiv old_r r) = Int.tdiv old_r r + 65536 * k :=
    ⟨-((Int.tdiv old_r r + 32768) / 65536), by unfold i16; omega⟩
  obtain ⟨k, hk⟩ := hq
  have hnew : (xgcd_body ⟨old_r, r, old_s, s, old_t, t⟩).r = Int.tmod old_r r := by
    simp only [xgcd_body]
    rw [hk]
    have e : old_r - (Int.tdiv old_r r + 65536 * k) * r =
        Int.tmod old_r r - 65536 * (k * r) := by rw [hd]; ring
    rw [e, i16_sub_mul]
    exact i16_of_range _ (by omega) (by omega)
  rw [hnew]
  simp only
  omega

theorem xgcd_loop_terminates : ∀ (fuel : Nat) (st : xgcd_state),
    -32768 ≤ st.r → st.r ≤ 32767 → st.r.natAbs < fuel →
    ∃ st1, xgcd_loop fuel st = some st1 ∧ st1.r = 0 := by
  intro fuel
  induction fuel with
  | zero => intro st _ _ h; omega
  | succ n ih =>
    intro st h0 h1 hlt
    by_cases hr : st.r = 0
    · exact ⟨st, by simp [xgcd_loop, hr], hr⟩
    · obtain ⟨d1, d2, d3⟩ := xgcd_body_decreases st hr ⟨h0, h1⟩
      obtain ⟨st1, a1, a2⟩ := ih (xgcd_body st) d2 d3 (by omega)
      exact ⟨st1, by simp [xgcd_loop, hr, a1], a2⟩

/-- The loop of `xgcd` comes to an end within its fuel on all arguments: `xgcd`
returns a result for every pair of inputs. -/
theorem xgcd_terminates (x y : Nat) : ∃ res, xgcd x y = some res := by
  have hy := i16_range (y : Int)
  obtain ⟨st1, h, _⟩ := xgcd_loop_terminates 32769
    (xgcd_state.mk (i16 x) (i16 y) 1 0 0 1) hy.1 hy.2 (by simp only; omega)
  exact ⟨(st1.old_s, st1.old_t, st1.old_r), by simp [xgcd, h]⟩

/-! ## Inversion and division -/

theorem prime_Q : Nat.Prime 3329 := by norm_num

/-- For non-zero canonical `x`, `xgcd x Q` returns `(s, t, 1)` with
`s * x + t * 3329 = 1` and `-3329 < s < 3329`. -/
theorem xgcd_Q (x : Nat) (h1 : 1 ≤ x) (h2 : x < 3329) :
    ∃ s t : Int, xgcd x Q = some (s, t, 1) ∧ s * x + t * 3329 = 1 ∧ -3329 < s ∧ s < 3329 := by
  obtain ⟨s, t, g, hx, hb, hg0, hgx, hgy, hs, _⟩ := xgcd_spec x Q (by omega) (by decide)
  rw [Q_eq] at hx hb hgy hs
  simp only [Nat.cast_ofNat] at hb hgy hs
  have hg1 : g = 1 := by
    have hd : g.natAbs ∣ 3329 := by
      have := Int.natAbs_dvd_natAbs.mpr hgy
      simpa using this
    rcases (Nat.dvd_prime prime_Q).1 hd with h | h
    · omega
    · exfalso
      have hle : g ≤ x := Int.le_of_dvd (by omega) hgx
      omega
  subst hg1
  refine ⟨s, t, by rw [Q_eq]; exact hx, hb, ?_, ?_⟩
  · rcases hs with hs | hs
    · by_contra hc
      have : s = -3329 := by omega
      subst this
      omega
    · omega
  · rcases hs with hs | hs
    · by_contra hc
      have : s = 3329 := by omega
      subst this
      omega
    · omega

/-- The value computed by `inv` from the first coefficient `s` of `xgcd`, for a
non-zero operand (`flg0 = false`). -/
theorem inv_fix (s : Int) (h0 : -3329 < s) (h1 : s < 3329) :
    ∃ w : Nat, w < 3329 ∧ ((w : Int) = s ∨ (w : Int) = s + 3329) ∧
      u16 (u16 (u16 ((decide (s < 0)).toNat * Q + s) -
        (decide (Q ≤ u16 ((decide (s < 0)).toNat * Q + s))).toNat * Q) -
          (false).toNat * 1) = w := by
  rw [Q_eq]
  by_cases hs : s < 0
  · refine ⟨(s + 3329).toNat, by omega, Or.inr (by omega), ?_⟩
    have e1 : u16 ((decide (s < 0)).toNat * (3329 : Nat) + s) = (s + 3329).toNat := by
      simp only [hs, decide_True, Bool.toNat_true]; unfold u16; omega
    rw [e1]
    have e2 : decide (3329 ≤ (s + 3329).toNat) = false := by
      simp only [decide_eq_false_iff_not]; omega
    rw [e2]
    simp only [Bool.toNat_false]
    unfold u16; omega
  · refine ⟨s.toNat, by omega, Or.inl (by omega), ?_⟩
    have e1 : u16 ((decide (s < 0)).toNat * (3329 : Nat) + s) = s.toNat := by
      simp only [hs, decide_False, Bool.toNat_false]; unfold u16; omega
    rw [e1]
    have e2 : decide (3329 ≤ s.toNat) = false := by
      simp only [decide_eq_false_iff_not]; omega
    rw [e2]
    simp only [Bool.toNat_false]
    unfold u16; omega

/-- For non-zero canonical `a`, `inv` returns a canonical `b` with
`(a.v * b.v) mod 3329 = 1`. -/
theorem inv_spec (a : ff_t) (h1 : 1 ≤ a.v) (h2 : a.v < 3329) :
    ∃ b : ff_t, ff_t.inv a = some b ∧ b.v < 3329 ∧ (a.v * b.v) % 3329 = 1 := by
  obtain ⟨s, t, hx, hb, hs0, hs1⟩ := xgcd_Q a.v h1 h2
  obtain ⟨w, hw, hws, hwe⟩ := inv_fix s hs0 hs1
  have hf : decide (a.v = 0) = false := by
    simp only [decide_eq_false_iff_not]; omega
  have ht0 : u16 (a.v + (false).toNat * 1) = a.v := by
    simp only [Bool.toNat_false]; unfold u16; omega
  refine ⟨ff_t.new w, ?_, ?_, ?_⟩
  · unfold ff_t.inv
    simp only [hf]
    rw [ht0, hx]
    simp only []
    rw [hwe]
  · rw [new_v]; omega
  · rw [new_v, Nat.mod_eq_of_lt hw]
    have key : ((a.v * w : Nat) : Int) % 3329 = 1 := by
      push_cast
      rcases hws with e | e
      · have : (a.v : Int) * w = 1 + 3329 * (-t) := by rw [e, ← hb]; ring
        rw [this]; omega
      · have : (a.v : Int) * w = 1 + 3329 * (a.v - t) := by rw [e]; linear_combination hb
        rw [this]; omega
    omega

/-! ## Exponentiation -/

theorem bit_test (n i : Nat) : ((n >>> i) &&& 1 ≠ 0) ↔ n / 2 ^ i % 2 = 1 := by
  rw [Nat.shiftRight_eq_div_pow, Nat.and_one_is_mod]; omega

theorem bit_test_one (n i : Nat) : ((n >>> i) &&& 1 = 1) ↔ n / 2 ^ i % 2 = 1 := by
  rw [Nat.shiftRight_eq_div_pow, Nat.and_one_is_mod]

/-- The scan of `countl_zero` finds the bit length: if `n < 2^k` then
`k - countl_zero_from k n` is the number of significant bits of `n`. -/
theorem countl_zero_from_spec : ∀ (k n : Nat), n < 2 ^ k →
    ff_t.countl_zero_from k n ≤ k ∧ n < 2 ^ (k - ff_t.countl_zero_from k n) ∧
    (n ≠ 0 → 2 ^ (k - ff_t.countl_zero_from k n - 1) ≤ n ∧
      1 ≤ k - ff_t.countl_zero_from k n) := by
  intro k
  induction k with
  | zero =>
    intro n hn
    simp only [ff_t.countl_zero_from]
    refine ⟨le_refl _, by simpa using hn, fun h => ?_⟩
    simp at hn; omega
  | succ k ih =>
    intro n hn
    by_cases hb : (n >>> k) &&& 1 = 1
    · simp only [ff_t.countl_zero_from, hb, if_true]
      refine ⟨by omega, by simpa using hn, fun _ => ⟨?_, by omega⟩⟩
      rw [bit_test_one] at hb
      simp only [Nat.sub_zero, Nat.add_sub_cancel]
      have h1 : 1 ≤ n / 2 ^ k := by
        generalize n / 2 ^ k = d at hb
        omega
      exact (Nat.one_le_div_iff (by positivity)).mp h1
    · simp only [ff_t.countl_zero_from, hb, if_false]
      rw [bit_test_one] at hb
      have h2 : n / 2 ^ k < 2 := by
        rw [Nat.div_lt_iff_lt_mul (by positivity)]
        rw [pow_succ] at hn; omega
      have h3 : n / 2 ^ k < 1 := by
        generalize n / 2 ^ k = d at hb h2
        omega
      have h4 : n < 2 ^ k := by
        have := (Nat.div_lt_iff_lt_mul (by positivity)).mp h3
        omega
      obtain ⟨c1, c2, c3⟩ := ih n h4
      refine ⟨by omega, ?_, fun h => ?_⟩
      · have : k + 1 - (ff_t.countl_zero_from k n + 1) = k - ff_t.countl_zero_from k n := by omega
        rw [this]; exact c2
      · have : k + 1 - (ff_t.countl_zero_from k n + 1) = k - ff_t.countl_zero_from k n := by omega
        rw [this]; exact c3 h

theorem new_lt (x : Nat) : (ff_t.new x).v < 3329 := by
  rw [new_v]; omega

theorem mul_lt (a b : ff_t) : (ff_t.mul a b).v < 3329 := new_lt _

theorem one_v : ff_t.one.v = 1 := by decide

theorem zero_v : ff_t.zero.v = 0 := by decide

/-- Loop invariant of `operator^`: entering a pass with counter `j + 1`, `base`
holds `a^(2^j)` and `r` holds `a^(n mod 2^(j+1))`; after `k` more passes `r` holds
`a^(n mod 2^(j+1+k))`. -/
theorem pow_loop_val (a n : Nat) : ∀ (k j : Nat) (base r : ff_t),
    base.v = a ^ (2 ^ j) % 3329 → r.v = a ^ (n % 2 ^ (j + 1)) % 3329 →
    (ff_t.pow_loop n k (j + 1) base r).v = a ^ (n % 2 ^ (j + 1 + k)) % 3329 := by
  intro k
  induction k with
  | zero => intro j base r _ hr; simpa [ff_t.pow_loop] using hr
  | succ k ih =>
    intro j base r hb hr
    have hbl : base.v < 3329 := by rw [hb]; exact Nat.mod_lt _ (by norm_num)
    have hrl : r.v < 3329 := by rw [hr]; exact Nat.mod_lt _ (by norm_num)
    have hb1 : (ff_t.mul base base).v = a ^ (2 ^ (j + 1)) % 3329 := by
      rw [mul_val base base hbl hbl, hb, ← Nat.mul_mod, ← pow_add, pow_succ 2 j]
      congr 2; ring
    have hsplit : n % 2 ^ (j + 1 + 1) = n % 2 ^ (j + 1) + 2 ^ (j + 1) * (n / 2 ^ (j + 1) % 2) :=
      Nat.mod_pow_succ
    simp only [ff_t.pow_loop]
    have hidx : j + 1 + (k + 1) = (j + 1) + 1 + k := by omega
    rw [hidx]
    apply ih (j + 1)
    · exact hb1
    · by_cases hbit : (n >>> (j + 1)) &&& 1 ≠ 0
      · rw [if_pos hbit]
        rw [bit_test] at hbit
        rw [mul_val r _ hrl (mul_lt _ _), hb1, hr, ← Nat.mul_mod, ← pow_add, hsplit, hbit,
          Nat.mul_one]
      · rw [if_neg hbit]
        rw [bit_test] at hbit
        have h0 : n / 2 ^ (j + 1) % 2 = 0 := by
          generalize n / 2 ^ (j + 1) = d at hbit
          omega
        rw [hr, hsplit, h0, Nat.mul_zero]; rfl

/-- For a canonical operand and a 64-bit exponent, `operator^` returns
`a.v ^ n mod 3329`. -/
theorem pow_val (a : ff_t) (n : Nat) (ha : a.v < 3329) (hn : n < 2 ^ 64) :
    (ff_t.pow a n).v = a.v ^ n % 3329 := by
  unfold ff_t.pow
  by_cases h0 : n = 0
  · subst h0; simp [one_v]
  by_cases h1 : n = 1
  · subst h1; simp [Nat.mod_eq_of_lt ha]
  by_cases hz : a.v = 0
  · simp only [h0, h1, hz, if_false, if_true, zero_v]
    rw [zero_pow h0]
    exact (Nat.zero_mod 3329).symm
  simp only [h0, h1, hz, if_false]
  obtain ⟨c1, c2, c3⟩ := countl_zero_from_spec 64 n hn
  obtain ⟨_, c4⟩ := c3 h0
  have hr : (if n &&& 1 ≠ 0 then a else ff_t.one).v = a.v ^ (n % 2 ^ (0 + 1)) % 3329 := by
    have e : n % 2 ^ (0 + 1) = n % 2 := by norm_num
    rw [e]
    by_cases hb : n &&& 1 ≠ 0
    · rw [if_pos hb]
      rw [Nat.and_one_is_mod] at hb
      have : n % 2 = 1 := by omega
      rw [this, pow_one, Nat.mod_eq_of_lt ha]
    · rw [if_neg hb]
      rw [Nat.and_one_is_mod] at hb
      have : n % 2 = 0 := by omega
      rw [this, pow_zero, one_v]
      exact (Nat.mod_eq_of_lt (by norm_num)).symm
  have hb : a.v = a.v ^ (2 ^ 0) % 3329 := by
    rw [pow_zero, pow_one, Nat.mod_eq_of_lt ha]
  have key := pow_loop_val a.v n (64 - ff_t.countl_zero n - 1) 0 a _ hb hr
  have hidx : 0 + 1 + (64 - ff_t.countl_zero n - 1) = 64 - ff_t.countl_zero_from 64 n := by
    unfold ff_t.countl_zero; omega
  rw [hidx, Nat.mod_eq_of_lt c2] at key
  exact key

/-! ## Inverse, division, exponentiation and the canonical form: the claims -/

theorem inv_zero_eq : ff_t.inv ⟨0⟩ = some ff_t.zero := by rfl

theorem inv_total (a : ff_t) (ha : a.v < 3329) :
    ∃ b : ff_t, ff_t.inv a = some b ∧ b.v < 3329 := by
  by_cases h0 : a.v = 0
  · have : a = ⟨0⟩ := ff_t.eq_of_v h0
    subst this
    exact ⟨ff_t.zero, inv_zero_eq, by decide⟩
  · obtain ⟨b, hb, hbl, _⟩ := inv_spec a (by omega) ha
    exact ⟨b, hb, hbl⟩

/-- C2: for every non-zero canonical `a`, `inv` returns an element `b` with
`a * b` equal to the field element one, that is `(a.v * b.v) mod 3329 = 1`. -/
theorem mul_inv_eq_one (a : ff_t) (h1 : 1 ≤ a.v) (h2 : a.v < 3329) :
    ∃ b : ff_t, ff_t.inv a = some b ∧ ff_t.mul a b = ff_t.one ∧ (a.v * b.v) % 3329 = 1 := by
  obtain ⟨b, hb, hbl, hm⟩ := inv_spec a h1 h2
  refine ⟨b, hb, ff_t.eq_of_v ?_, hm⟩
  rw [mul_val a b h2 hbl, hm, one_v]

theorem mul_inv_eq_one_witness :
    ∃ b : ff_t, ff_t.inv ⟨128⟩ = some b ∧ ff_t.mul ⟨128⟩ b = ff_t.one ∧
      (128 * b.v) % 3329 = 1 :=
  mul_inv_eq_one ⟨128⟩ (by decide) (by decide)

/-- C8: the inverse of zero is the sentinel zero.  `inv` returns (it does not
fail) the element of value 0; the operand handed to `xgcd` is 1, the loop body
runs twice, dividing by `r = 3329` and by `r = 1`, and stops with `r = 0`. -/
theorem inv_zero :
    ff_t.inv (ff_t.new 0) = some ff_t.zero ∧ ff_t.zero.v = 0 ∧
    u16 ((ff_t.new 0).v + (decide ((ff_t.new 0).v = 0)).toNat * 1) = 1 ∧
    xgcd 1 Q = some (1, 0, 1) ∧
    (xgcd_state.mk (i16 1) (i16 Q) 1 0 0 1).r = 3329 ∧
    (xgcd_body (xgcd_state.mk (i16 1) (i16 Q) 1 0 0 1)).r = 1 ∧
    (xgcd_body (xgcd_body (xgcd_state.mk (i16 1) (i16 Q) 1 0 0 1))).r = 0 :=
  ⟨rfl, rfl, rfl, rfl, rfl, rfl, rfl⟩

/-- C9: for canonical `a` and non-zero canonical `b`, `operator/` returns an
element `c` with `c * b = a`. -/
theorem div_mul_cancel (a b : ff_t) (ha : a.v < 3329) (hb1 : 1 ≤ b.v) (hb2 : b.v < 3329) :
    ∃ c : ff_t, ff_t.div a b = some c ∧ ff_t.mul c b = a := by
  obtain ⟨bi, hbi, hbl, hm⟩ := inv_spec b hb1 hb2
  refine ⟨ff_t.mul a bi, by unfold ff_t.div; rw [hbi], ff_t.eq_of_v ?_⟩
  rw [mul_val _ b (mul_lt _ _) hb2, mul_val a bi ha hbl, Nat.mod_mul_mod, Nat.mul_assoc,
    Nat.mul_comm bi.v b.v, Nat.mul_mod, hm, Nat.mul_one, Nat.mod_mod, Nat.mod_eq_of_lt ha]

theorem div_mul_cancel_witness :
    ∃ c : ff_t, ff_t.div ⟨5⟩ ⟨3328⟩ = some c ∧ ff_t.mul c ⟨3328⟩ = ⟨5⟩ :=
  div_mul_cancel ⟨5⟩ ⟨3328⟩ (by decide) (by decide) (by decide)

/-- C6: for a canonical operand and every exponent below `2^64`, `operator^`
returns `a.v ^ n mod 3329`; the exponent 0 gives one for every operand, zero
included, and the operand zero gives zero for every exponent `n ≥ 1`. -/
theorem pow_correct (a : ff_t) (n : Nat) (ha : a.v < 3329) (hn : n < 2 ^ 64) :
    (ff_t.pow a n).v = a.v ^ n % 3329 ∧ ff_t.pow a 0 = ff_t.one ∧ ff_t.one.v = 1 ∧
    (ff_t.pow ff_t.zero n).v = if n = 0 then 1 else 0 := by
  refine ⟨pow_val a n ha hn, by simp [ff_t.pow], one_v, ?_⟩
  rw [pow_val ff_t.zero n (by decide) hn, zero_v]
  by_cases h : n = 0
  · subst h; simp
  · rw [if_neg h, zero_pow h, Nat.zero_mod]

theorem pow_correct_witness :
    (ff_t.pow ⟨17⟩ 256).v = 17 ^ 256 % 3329 ∧ ff_t.pow ⟨17⟩ 0 = ff_t.one ∧ ff_t.one.v = 1 ∧
    (ff_t.pow ff_t.zero 256).v = if 256 = 0 then 1 else 0 :=
  pow_correct ⟨17⟩ 256 (by decide) (by norm_num)

/-- C7: canonical form is an invariant.  The constructor takes every 16-bit
argument unchanged and reduces it modulo 3329, and on canonical operands `operator+`, `operator+=`, binary
and unary `operator-`, `operator*`, `inv`, `operator/` and `operator^` (with any
64-bit exponent) return, or leave in place, a value below 3329; `inv` and
`operator/` do return a value, for a zero operand or divisor too. -/
theorem canonical_form (x : Nat) (a b : ff_t) (n : Nat) (hx : x < 65536)
    (ha : a.v < 3329) (hb : b.v < 3329) (hn : n < 2 ^ 64) :
    (u16 x = x ∧ (ff_t.new x).v = x % 3329 ∧ (ff_t.new x).v < 3329) ∧
    (ff_t.add a b).v < 3329 ∧ (ff_t.add_assign a b).v < 3329 ∧
    (ff_t.sub a b).v < 3329 ∧ (ff_t.neg a).v < 3329 ∧ (ff_t.mul a b).v < 3329 ∧
    (∃ c : ff_t, ff_t.inv a = some c ∧ c.v < 3329) ∧
    (∃ c : ff_t, ff_t.div a b = some c ∧ c.v < 3329) ∧
    (ff_t.pow a n).v < 3329 := by
  have h1 := add_val a b ha hb
  have h2 := add_assign_val a b ha hb
  have h3 := sub_val a b ha hb
  have h4 := neg_val a ha
  have h5 := pow_val a n ha hn
  refine ⟨⟨u16_of_lt x hx, new_v x, new_lt x⟩, by omega, by omega, by omega, by omega, mul_lt a b,
    inv_total a ha, ?_, ?_⟩
  · obtain ⟨bi, hbi, _⟩ := inv_total b hb
    exact ⟨ff_t.mul a bi, by unfold ff_t.div; rw [hbi], mul_lt _ _⟩
  · rw [h5]; exact Nat.mod_lt _ (by norm_num)

theorem canonical_form_witness :
    (u16 (65535 : Nat) = 65535 ∧ (ff_t.new 65535).v = 65535 % 3329 ∧
      (ff_t.new 65535).v < 3329) ∧
    (ff_t.add ⟨3328⟩ ⟨3328⟩).v < 3329 ∧ (ff_t.add_assign ⟨3328⟩ ⟨3328⟩).v < 3329 ∧
    (ff_t.sub ⟨3328⟩ ⟨3328⟩).v < 3329 ∧ (ff_t.neg ⟨3328⟩).v < 3329 ∧
    (ff_t.mul ⟨3328⟩ ⟨3328⟩).v < 3329 ∧
    (∃ c : ff_t, ff_t.inv ⟨3328⟩ = some c ∧ c.v < 3329) ∧
    (∃ c : ff_t, ff_t.div ⟨3328⟩ ⟨3328⟩ = some c ∧ c.v < 3329) ∧
    (ff_t.pow ⟨3328⟩ 18446744073709551615).v < 3329 :=
  canonical_form 65535 ⟨3328⟩ ⟨3328⟩ 18446744073709551615 (by decide) (by decide) (by decide)
    (by norm_num)

/-! ## Roots of unity and named constants -/

set_option maxRecDepth 100000 in
/-- C11: for `1 ≤ n ≤ TWO_ADICITY`, `nth_root_of_unity n` has order exactly `2^n`:
its `2^n`-th power is one, and its `2^(n-1)`-th power is not one, it is the element
of value 3328. -/
theorem nth_root_of_unity_order (n : Nat) (h1 : 1 ≤ n) (h2 : n ≤ TWO_ADICITY) :
    ff_t.pow (nth_root_of_unity n) (2 ^ n) = ff_t.one ∧
    ff_t.pow (nth_root_of_unity n) (2 ^ (n - 1)) ≠ ff_t.one ∧
    (ff_t.pow (nth_root_of_unity n) (2 ^ (n - 1))).v = 3328 := by
  have h3 : n ≤ 8 := h2
  have hne : ∀ c : ff_t, c.v = 3328 → c ≠ ff_t.one := by
    intro c hc h
    rw [h, one_v] at hc
    omega
  interval_cases n
  all_goals exact ⟨rfl, hne _ rfl, rfl⟩

theorem nth_root_of_unity_order_witness :
    ff_t.pow (nth_root_of_unity 8) (2 ^ 8) = ff_t.one ∧
    ff_t.pow (nth_root_of_unity 8) (2 ^ (8 - 1)) ≠ ff_t.one ∧
    (ff_t.pow (nth_root_of_unity 8) (2 ^ (8 - 1))).v = 3328 :=
  nth_root_of_unity_order 8 (by decide) (by decide)

set_option maxRecDepth 100000 in
/-- C14: computed by the field code, 17 is a primitive 256-th root of unity:
`ff_t(17) ^ 256` is one, `ff_t(17) ^ 128` has value 3328, and no power
`ff_t(17) ^ (2^k)` with `k < 8` is one. -/
theorem zeta_primitive :
    ff_t.pow (ff_t.new 17) 256 = ff_t.one ∧ (ff_t.pow (ff_t.new 17) 128).v = 3328 ∧
    ∀ k : Nat, k < 8 → ff_t.pow (ff_t.new 17) (2 ^ k) ≠ ff_t.one := by
  refine ⟨rfl, rfl, ?_⟩
  intro k hk h
  have hv := congrArg ff_t.v h
  rw [one_v] at hv
  revert hv
  interval_cases k
  all_goals exact of_decide_eq_true rfl

/-- C15: the inverse NTT scaling constant: `ff_t(128).inv()` has value 3303, and
`ff_t(128) * ff_t(3303)` is one. -/
theorem inv_128 :
    ff_t.inv (ff_t.new 128) = some ⟨3303⟩ ∧
    ff_t.mul (ff_t.new 128) (ff_t.new 3303) = ff_t.one :=
  ⟨rfl, rfl⟩

/-! ## `xgcd` computes the greatest common divisor -/

/-- C12: on 15-bit inputs `xgcd` returns `(a, b, g)` with `a*x + b*y = g` over the
integers and `g = gcd(x, y)` (with `gcd(0, 0) = 0`). -/
theorem xgcd_gcd (x y : Nat) (hx : x < 2 ^ 15) (hy : y < 2 ^ 15) :
    ∃ a b g : Int, xgcd x y = some (a, b, g) ∧ a * x + b * y = g ∧
      g = (Nat.gcd x y : Int) := by
  obtain ⟨a, b, g, hr, hb, hg0, hgx, hgy, _, _⟩ :=
    xgcd_spec x y (by norm_num at hx; omega) (by norm_num at hy; omega)
  refine ⟨a, b, g, hr, hb, ?_⟩
  have h1 : g ∣ (Nat.gcd x y : Int) := Int.dvd_gcd hgx hgy
  have h2 : (Nat.gcd x y : Int) ∣ g := by
    rw [← hb]
    exact dvd_add (Dvd.dvd.mul_left (Int.natCast_dvd_natCast.mpr (Nat.gcd_dvd_left x y)) a)
      (Dvd.dvd.mul_left (Int.natCast_dvd_natCast.mpr (Nat.gcd_dvd_right x y)) b)
  exact Int.dvd_antisymm hg0 (Int.natCast_nonneg _) h1 h2

theorem xgcd_gcd_witness :
    ∃ a b g : Int, xgcd 240 46 = some (a, b, g) ∧ a * (240 : Nat) + b * (46 : Nat) = g ∧
      g = (Nat.gcd 240 46 : Int) :=
  xgcd_gcd 240 46 (by norm_num) (by norm_num)

theorem xgcd_zero_zero : xgcd 0 0 = some (1, 0, 0) := by rfl

/-! ## The two inverse algorithms agree -/

/-- Fermat: for non-zero canonical `a`, `a.v ^ 3328 mod 3329 = 1`. -/
theorem fermat_Q (x : Nat) (h1 : 1 ≤ x) (h2 : x < 3329) : x ^ 3328 % 3329 = 1 := by
  have hc : Nat.Coprime x 3329 := by
    rw [Nat.coprime_comm, Nat.Prime.coprime_iff_not_dvd prime_Q]
    intro hd
    have := Nat.le_of_dvd (by omega) hd
    omega
  have h : x ^ Nat.totient 3329 % 3329 = 1 % 3329 := Nat.ModEq.pow_totient hc
  rw [Nat.totient_prime prime_Q] at h
  have e1 : 3329 - 1 = 3328 := by norm_num
  have e2 : 1 % 3329 = 1 := by norm_num
  rw [e1, e2] at h
  exact h

/-- C16: on the whole field `inv` (extended Euclid with the zero sentinel) returns
the Fermat inverse `a ^ 3327` computed by `operator^`; for zero both are zero. -/
theorem inv_eq_pow (a : ff_t) (ha : a.v < 3329) :
    ff_t.inv a = some (ff_t.pow a 3327) ∧ ff_t.inv ⟨0⟩ = some ff_t.zero ∧
    ff_t.pow ⟨0⟩ 3327 = ff_t.zero := by
  have hz : ff_t.pow ⟨0⟩ 3327 = ff_t.zero := by simp [ff_t.pow]
  refine ⟨?_, inv_zero_eq, hz⟩
  by_cases h0 : a.v = 0
  · have : a = ⟨0⟩ := ff_t.eq_of_v h0
    subst this
    rw [hz]; exact inv_zero_eq
  · obtain ⟨b, hb, hbl, hm⟩ := inv_spec a (by omega) ha
    rw [hb]
    refine congrArg some (ff_t.eq_of_v ?_)
    have hp := pow_val a 3327 ha (by norm_num)
    have hf := fermat_Q a.v (by omega) ha
    rw [hp]
    -- b = b * (a * a^3327) = (a * b) * a^3327 = a^3327 modulo 3329
    have e1 : b.v * (a.v ^ 3328) % 3329 = b.v := by
      rw [Nat.mul_mod, hf, Nat.mul_one, Nat.mod_mod, Nat.mod_eq_of_lt hbl]
    have e2 : b.v * (a.v ^ 3328) % 3329 = a.v ^ 3327 % 3329 := by
      have : b.v * (a.v ^ 3328) = (a.v * b.v) * a.v ^ 3327 := by
        rw [show (3328 : Nat) = 3327 + 1 from rfl, pow_succ]; ring
      rw [this, Nat.mul_mod, hm, Nat.one_mul, Nat.mod_mod]
    rw [← e1, e2]

theorem inv_eq_pow_witness :
    ff_t.inv ⟨128⟩ = some (ff_t.pow ⟨128⟩ 3327) ∧ ff_t.inv ⟨0⟩ = some ff_t.zero ∧
    ff_t.pow ⟨0⟩ 3327 = ff_t.zero :=
  inv_eq_pow ⟨128⟩ (by decide)

/-! ## The Barrett quotient estimate -/

theorem mul_t2_val (a b : ff_t) (ha : a.v < 3329) (hb : b.v < 3329) :
    ff_t.mul_t2 a b = a.v * b.v := by
  have ht : a.v * b.v < 11082241 := Nat.mul_lt_mul'' ha hb
  unfold ff_t.mul_t2
  rw [u32_of_lt a.v (by omega), u32_of_lt b.v (by omega), ← Nat.cast_mul,
    u32_of_lt _ (by omega)]

theorem mul_t4_val (a b : ff_t) (ha : a.v < 3329) (hb : b.v < 3329) :
    ff_t.mul_t4 a b = a.v * b.v * 5039 / 16777216 := by
  have ht : a.v * b.v < 11082241 := Nat.mul_lt_mul'' ha hb
  unfold ff_t.mul_t4
  rw [mul_t2_val a b ha hb, u64_R, u64_of_lt _ (by omega), ← Nat.cast_mul,
    u64_of_lt _ (by omega), Nat.shiftRight_eq_div_pow, two_pow_24, u32_of_lt _ (by omega)]

/-- C13: the Barrett quotient estimate of `operator*` is off by at most one.  With
`R = 5039 = floor(2^24 / 3329)` and `t = a.v * b.v` for canonical operands, `t4` is
`floor(t * R / 2^24)` and equals `floor(t / 3329)` or `floor(t / 3329) - 1`; the
difference `t2 - t5` is `t - t4 * 3329`, lies below `2 * 3329`, is not changed by
the cast to `uint16_t`, and one conditional subtraction of `Q` gives `t mod 3329`,
the value that `operator*` returns. -/
theorem barrett_estimate (a b : ff_t) (ha : a.v < 3329) (hb : b.v < 3329) :
    R = 2 ^ 24 / 3329 ∧ ff_t.mul_t2 a b = a.v * b.v ∧
    ff_t.mul_t4 a b = a.v * b.v * R / 2 ^ 24 ∧
    (ff_t.mul_t4 a b = a.v * b.v / 3329 ∨ ff_t.mul_t4 a b + 1 = a.v * b.v / 3329) ∧
    ff_t.mul_t4 a b * 3329 ≤ a.v * b.v ∧
    ff_t.mul_t2_sub_t5 a b = a.v * b.v - ff_t.mul_t4 a b * 3329 ∧
    ff_t.mul_t2_sub_t5 a b < 2 * 3329 ∧
    ff_t.mul_t6 a b = ff_t.mul_t2_sub_t5 a b ∧
    ff_t.mul_t7 a b = a.v * b.v % 3329 ∧
    ff_t.mul a b = ff_t.new (ff_t.mul_t7 a b) := by
  have ht : a.v * b.v < 11082241 := Nat.mul_lt_mul'' ha hb
  have h2 := mul_t2_val a b ha hb
  have h4 := mul_t4_val a b ha hb
  have hR : R = 2 ^ 24 / 3329 := by decide
  have hd : ff_t.mul_t2_sub_t5 a b = u32 ((a.v * b.v : Nat) - ((ff_t.mul_t4 a b * 3329 : Nat) : Int)) := by
    unfold ff_t.mul_t2_sub_t5
    rw [h2, u32_Q, ← Nat.cast_mul, u32_of_lt (ff_t.mul_t4 a b * 3329) (by omega)]
  have h6 : ff_t.mul_t6 a b = u16 (ff_t.mul_t2_sub_t5 a b) := rfl
  have h7 : ff_t.mul_t7 a b =
      u16 (ff_t.mul_t6 a b - (decide (Q ≤ ff_t.mul_t6 a b)).toNat * Q) := rfl
  have hmul : ff_t.mul a b = ff_t.new (ff_t.mul_t7 a b) := rfl
  generalize ff_t.mul_t6 a b = t6 at h6 h7
  generalize ff_t.mul_t7 a b = t7 at h7 hmul
  generalize ff_t.mul_t2_sub_t5 a b = d at hd h6
  generalize ff_t.mul_t4 a b = q at h4 hd
  generalize a.v * b.v = t at ht h2 h4 hd
  have hq1 : q * 3329 ≤ t := by omega
  have hq2 : t - q * 3329 < 6658 := by omega
  have hq3 : q = t / 3329 ∨ q + 1 = t / 3329 := by omega
  have e : (t : Int) - ((q * 3329 : Nat) : Int) = ((t - q * 3329 : Nat) : Int) := by omega
  rw [e, u32_of_lt _ (by omega)] at hd
  rw [hd, u16_of_lt _ (by omega)] at h6
  rw [h6, cond_sub _ hq2] at h7
  refine ⟨hR, h2, ?_, hq3, hq1, hd, by omega, by rw [h6, hd], by rw [h7]; omega, hmul⟩
  rw [h4, two_pow_24]; rfl

theorem barrett_estimate_witness :
    R = 2 ^ 24 / 3329 ∧ ff_t.mul_t2 ⟨4⟩ ⟨2497⟩ = 4 * 2497 ∧
    ff_t.mul_t4 ⟨4⟩ ⟨2497⟩ = 4 * 2497 * R / 2 ^ 24 ∧
    (ff_t.mul_t4 ⟨4⟩ ⟨2497⟩ = 4 * 2497 / 3329 ∨
      ff_t.mul_t4 ⟨4⟩ ⟨2497⟩ + 1 = 4 * 2497 / 3329) ∧
    ff_t.mul_t4 ⟨4⟩ ⟨2497⟩ * 3329 ≤ 4 * 2497 ∧
    ff_t.mul_t2_sub_t5 ⟨4⟩ ⟨2497⟩ = 4 * 2497 - ff_t.mul_t4 ⟨4⟩ ⟨2497⟩ * 3329 ∧
    ff_t.mul_t2_sub_t5 ⟨4⟩ ⟨2497⟩ < 2 * 3329 ∧
    ff_t.mul_t6 ⟨4⟩ ⟨2497⟩ = ff_t.mul_t2_sub_t5 ⟨4⟩ ⟨2497⟩ ∧
    ff_t.mul_t7 ⟨4⟩ ⟨2497⟩ = 4 * 2497 % 3329 ∧
    ff_t.mul ⟨4⟩ ⟨2497⟩ = ff_t.new (ff_t.mul_t7 ⟨4⟩ ⟨2497⟩) :=
  barrett_estimate ⟨4⟩ ⟨2497⟩ (by decide) (by decide)

/-! ## `xgcd` on the modulus runs without narrowing -/

theorem in_i16_iff (z : Int) : in_i16 z = true ↔ -32768 ≤ z ∧ z ≤ 32767 := by
  simp [in_i16]

/-- Under the loop invariant, no assignment of one pass through the loop body
narrows a value. -/
theorem xgcd_body_exact_of_inv (x y e : Int) (st : xgcd_state) (he : e = 1 ∨ e = -1)
    (hx : 0 ≤ x ∧ x ≤ 32767) (hy : 0 ≤ y ∧ y ≤ 32767)
    (h : xgcd_inv x y e st) (hr : st.r ≠ 0) : xgcd_body_exact st = true := by
  obtain ⟨old_r, r, old_s, s, old_t, t⟩ := st
  obtain ⟨⟨h1, h2, h3, h4⟩, ⟨b1, b2⟩, ⟨c1, c2⟩, ⟨s1, s2, s3, s4⟩, ⟨d1, d2, d3, d4⟩⟩ := h
  simp only at h1 h2 h3 h4 b1 b2 c1 c2 s1 s2 s3 s4 d1 d2 d3 d4 hr
  have hrpos : 1 ≤ r := by omega
  have hq0 : 0 ≤ old_r / r := Int.ediv_nonneg h1 h2
  have hq1 : old_r / r ≤ old_r := Int.ediv_le_self r h1
  have hm0 : 0 ≤ old_r % r := Int.emod_nonneg old_r hr
  have hm1 : old_r % r < r := Int.emod_lt_of_pos old_r (by omega)
  have hmd : old_r % r = old_r - r * (old_r / r) := Int.emod_def old_r r
  have hqe : Int.tdiv old_r r = old_r / r := Int.tdiv_eq_ediv h1 h2
  have hqi : i16 (old_r / r) = old_r / r := i16_of_range _ (by omega) (by omega)
  generalize old_r / r = q at hq0 hq1 hmd hqi hqe
  generalize old_r % r = m at hm0 hm1 hmd
  have hrr : old_r - q * r = m := by rw [hmd]; ring
  have es : 0 ≤ e * (old_s - q * s) := by
    have h : e * (old_s - q * s) = e * old_s + q * (-(e * s)) := by ring
    rw [h]; exact add_nonneg s1 (mul_nonneg hq0 (by linarith))
  have et : e * (old_t - q * t) ≤ 0 := by
    have h : e * (old_t - q * t) = -(-(e * old_t) + q * (e * t)) := by ring
    rw [h]
    have := add_nonneg (neg_nonneg.mpr s3) (mul_nonneg hq0 s4)
    linarith
  have cs : e * (old_s - q * s) * r + (-(e * s)) * m = y := by
    rw [← c1, hmd]; ring
  have ct : (-(e * (old_t - q * t))) * r + (e * t) * m = x := by
    rw [← c2, hmd]; ring
  have bs : e * (old_s - q * s) ≤ y :=
    le_of_mul_pos_le _ r _ y es hrpos (mul_nonneg (by linarith) hm0) cs
  have bt : -(e * (old_t - q * t)) ≤ x :=
    le_of_mul_pos_le _ r _ x (by linarith) hrpos (mul_nonneg s4 hm0) ct
  unfold xgcd_body_exact
  simp only [hqe, hqi, hrr, Bool.and_eq_true, in_i16_iff]
  rcases he with rfl | rfl
  · refine ⟨⟨⟨⟨⟨⟨⟨⟨⟨?_, ?_⟩, ?_⟩, ?_⟩, ?_⟩, ?_⟩, ?_⟩, ?_⟩, ?_⟩, ?_⟩ <;> constructor <;> omega
  · refine ⟨⟨⟨⟨⟨⟨⟨⟨⟨?_, ?_⟩, ?_⟩, ?_⟩, ?_⟩, ?_⟩, ?_⟩, ?_⟩, ?_⟩, ?_⟩ <;> constructor <;> omega

theorem xgcd_loop_exact_of_inv (x y : Int) (hx : 0 ≤ x ∧ x ≤ 32767)
    (hy : 0 ≤ y ∧ y ≤ 32767) :
    ∀ (fuel : Nat) (e : Int) (st : xgcd_state), (e = 1 ∨ e = -1) → xgcd_inv x y e st →
      st.r < fuel → xgcd_loop_exact fuel st = true := by
  intro fuel
  induction fuel with
  | zero =>
    intro e st _ h hlt
    have := h.1.2.1
    omega
  | succ n ih =>
    intro e st he h hlt
    by_cases hr : st.r = 0
    · simp [xgcd_loop_exact, hr]
    · obtain ⟨h1, h2⟩ := xgcd_body_inv x y e st he hx hy h hr
      have he1 : -e = 1 ∨ -e = -1 := by omega
      have hb := xgcd_body_exact_of_inv x y e st he hx hy h hr
      have hl := ih (-e) (xgcd_body st) he1 h1 (by omega)
      simp [xgcd_loop_exact, hr, hb, hl]

/-- On 15-bit inputs no narrowing conversion in `xgcd` changes a value. -/
theorem xgcd_exact_of_le (x y : Nat) (hx : x ≤ 32767) (hy : y ≤ 32767) :
    xgcd_exact x y = true := by
  have hx1 : i16 (x : Int) = x := i16_of_range _ (by omega) (by omega)
  have hy1 : i16 (y : Int) = y := i16_of_range _ (by omega) (by omega)
  have hl := xgcd_loop_exact_of_inv x y ⟨by omega, by omega⟩ ⟨by omega, by omega⟩ 32769 1
      (xgcd_state.mk x y 1 0 0 1) (Or.inl rfl)
      (xgcd_inv_init x y (by omega) (by omega) (by omega) (by omega))
      (by simp only; omega)
  unfold xgcd_exact
  rw [hx1, hy1, hl]
  simp only [Bool.and_eq_true, in_i16_iff, and_true]
  omega

theorem xgcd_zero_Q : xgcd 0 Q = some (0, 1, 3329) := by rfl

theorem xgcd_Q_Q : xgcd 3329 Q = some (0, 1, 3329) := by rfl

/-- C17: for `0 ≤ x ≤ 3329`, `xgcd(x, 3329)` runs without any narrowing conversion
changing a value: the casts on entry and every value assigned to `old_r`, `r`,
`old_s`, `s`, `old_t`, `t`, `quotient` and `tmp` lie in `[-32768, 32767]`.  The
first returned coefficient `a` satisfies `-3329 < a < 3329`, so `a`, with `Q` added
once when it is negative, lies in `[0, 3329)`. -/
theorem xgcd_Q_exact (x : Nat) (hx : x ≤ 3329) :
    xgcd_exact x Q = true ∧
    ∃ a b g : Int, xgcd x Q = some (a, b, g) ∧ -3329 < a ∧ a < 3329 ∧
      0 ≤ (decide (a < 0)).toNat * (Q : Int) + a ∧
      (decide (a < 0)).toNat * (Q : Int) + a < 3329 := by
  refine ⟨xgcd_exact_of_le x Q (by omega) (by decide), ?_⟩
  have hfix : ∀ a : Int, -3329 < a → a < 3329 →
      0 ≤ (decide (a < 0)).toNat * (Q : Int) + a ∧
        (decide (a < 0)).toNat * (Q : Int) + a < 3329 := by
    intro a h0 h1
    rw [Q_eq]
    by_cases hs : a < 0
    · simp only [hs, decide_True, Bool.toNat_true]; constructor <;> omega
    · simp only [hs, decide_False, Bool.toNat_false]; constructor <;> omega
  by_cases h0 : x = 0
  · subst h0
    exact ⟨0, 1, 3329, xgcd_zero_Q, by norm_num, by norm_num, hfix 0 (by norm_num) (by norm_num)⟩
  by_cases h1 : x = 3329
  · subst h1
    exact ⟨0, 1, 3329, xgcd_Q_Q, by norm_num, by norm_num, hfix 0 (by norm_num) (by norm_num)⟩
  obtain ⟨s, t, hr, _, hs0, hs1⟩ := xgcd_Q x (by omega) (by omega)
  exact ⟨s, t, 1, hr, hs0, hs1, hfix s hs0 hs1⟩

theorem xgcd_Q_exact_witness :
    xgcd_exact 3329 Q = true ∧
    ∃ a b g : Int, xgcd 3329 Q = some (a, b, g) ∧ -3329 < a ∧ a < 3329 ∧
      0 ≤ (decide (a < 0)).toNat * (Q : Int) + a ∧
      (decide (a < 0)).toNat * (Q : Int) + a < 3329 :=
  xgcd_Q_exact 3329 (by decide)

end ff
